import Mathlib

/-!
Shallow embedding of `src/src/os/unix/ngx_readv_chain.c` (nginx vectored read
for KasperskyOS).  Byte addresses are modelled as `Nat`; the C `ssize_t` /
`off_t` arithmetic is modelled as `Int` (no overflow occurs on the inputs the
theorems quantify over).  The platform `read` system call is modelled by an
oracle list of results consumed one per attempt, and the `FIONREAD`-style
pending-byte query (`ngx_socket_nread`) by an `Option Int` oracle.
-/

set_option autoImplicit false

/-- A buffer of the chain: the code reads only the `last` marker (start of the
free region) and the `end` marker (end of the allocated region).  `end` is a
Lean keyword, hence `end_`.  Both are byte addresses. -/
structure NgxBuf where
  last : Nat
  end_ : Nat
deriving Repr, DecidableEq

/-- Free space of one buffer: `chain->buf->end - chain->buf->last`, computed by
the C code in `ssize_t`. -/
def bufFree (b : NgxBuf) : Int := (b.end_ : Int) - (b.last : Int)

/-- Sum of the free regions of a chain. -/
def totalFree : List NgxBuf → Int
  | [] => 0
  | b :: rest => bufFree b + totalFree rest

/-- One scatter entry (`struct iovec`): base address plus length.  The code
grows `iov_len` with `ssize_t` values, so the length is carried as `Int`. -/
structure Iovec where
  iov_base : Nat
  iov_len : Int
deriving Repr, DecidableEq

/-- `totalLength` of `kos_readv`: the sum of the `iov_len` fields. -/
def ivTotal : List Iovec → Int
  | [] => 0
  | v :: vs => v.iov_len + ivTotal vs

/-- `iov->iov_len += n` on the entry most recently pushed (the C code keeps a
pointer `iov` to the last element of the vector). -/
def addToLast : List Iovec → Int → List Iovec
  | [], _ => []
  | [v], n => [{ v with iov_len := v.iov_len + n }]
  | v :: vs, n => v :: addToLast vs n

/-- Result of the coalescing loop: the entry vector, the cumulative requested
`size`, and the chain position at which the loop stopped (`chain` at loop
exit; `[]` when the whole chain was consumed). -/
structure CoalesceOut where
  iovs : List Iovec
  size : Int
  rest : List NgxBuf
deriving Repr, DecidableEq

/-- The length requested from one buffer (lines 155-165): the buffer's free
space, truncated to `limit - size` when a nonzero `limit` would be overshot. -/
def coalesceLen (limit size : Int) (b : NgxBuf) : Int :=
  if limit ≠ 0 ∧ limit < size + bufFree b then limit - size else bufFree b

/-- The coalescing loop of `ngx_readv_chain` (lines 154-187), with the running
state made explicit: `prev` is the C pointer `prev` (`none` models `NULL`),
`iovs` the vector contents so far, `size` the accumulated request size.
`cap` is `vec.nalloc`. -/
def coalesceAux (cap : Nat) (limit : Int) :
    List NgxBuf → Option Nat → List Iovec → Int → CoalesceOut
  | [], _, iovs, size => ⟨iovs, size, []⟩
  | b :: rest, prev, iovs, size =>
    if limit ≠ 0 ∧ limit ≤ size then
      ⟨iovs, size, b :: rest⟩
    else if prev = some b.last then
      coalesceAux cap limit rest (some b.end_)
        (addToLast iovs (coalesceLen limit size b)) (size + coalesceLen limit size b)
    else if iovs.length = cap then
      ⟨iovs, size, b :: rest⟩
    else
      coalesceAux cap limit rest (some b.end_)
        (iovs ++ [⟨b.last, coalesceLen limit size b⟩]) (size + coalesceLen limit size b)

/-- Modelled from the spec: the entry-vector capacity `NGX_IOVS_PREALLOCATE`
comes from a platform header that is not part of this repository; the spec
calls it "a small platform-tuned constant, e.g. 64". -/
def NGX_IOVS_PREALLOCATE : Nat := 64

/-- The Coalescer: initial state `prev = NULL`, empty vector, `size = 0`. -/
def ngx_coalesce (cap : Nat) (limit : Int) (chain : List NgxBuf) : CoalesceOut :=
  coalesceAux cap limit chain none [] 0

/-- Number of consecutive pairs of a chain that fail the adjacency test of
line 167: the pair `(b1, b2)` merges iff `b1.end_ = b2.last`. -/
def adjFails : List NgxBuf → Nat
  | [] => 0
  | [_] => 0
  | b1 :: b2 :: rest => (if b1.end_ = b2.last then 0 else 1) + adjFails (b2 :: rest)

/-- Number of entries the coalescing loop pushes (as opposed to merges) when
started with pointer state `prev`, ignoring capacity and limit. -/
def pushCount : Option Nat → List NgxBuf → Nat
  | _, [] => 0
  | prev, b :: rest => (if prev = some b.last then 0 else 1) + pushCount (some b.end_) rest

/-- A buffer whose free region has been completely filled: `last` advanced to
`end`. -/
def fullBuf (b : NgxBuf) : NgxBuf := { b with last := b.end_ }

/-- Modelled from the spec: advancing the `last` markers after a read of `n`
bytes is done by the callers of `ngx_readv_chain`, which are not part of this
repository.  The spec says "`last` advances by however many bytes were
actually written by the read", distributed over the chain's free regions in
chain order. -/
def fillBufs : List NgxBuf → Int → List NgxBuf
  | [], _ => []
  | b :: rest, n =>
    if bufFree b ≤ n then fullBuf b :: fillBufs rest (n - bufFree b)
    else { b with last := b.last + n.toNat } :: fillBufs rest 0

/-- Total length of a list of memory regions, each modelled by its byte
contents. -/
def regTotal (regs : List (List Nat)) : Nat := (regs.map List.length).sum

/-- The copy-out loop of `kos_readv` (lines 56-75): each region receives the
next `iov_len` bytes of the staging buffer, in order. -/
def scatterCopy : List (List Nat) → List Nat → List (List Nat)
  | [], _ => []
  | r :: rs, stage => stage.take r.length :: scatterCopy rs (stage.drop r.length)

/-- Byte-level model of the successful path of `kos_readv` (lines 44-81):
the staging buffer is `malloc`ed and zeroed (line 45-46), `read` places
`data.length` bytes at its start (line 49), and every region is then filled
with its full `iov_len` bytes from the staging buffer. -/
def kos_readv_fill (regs : List (List Nat)) (data : List Nat) : List (List Nat) :=
  scatterCopy regs (data ++ List.replicate (regTotal regs - data.length) 0)

/-- The platform vectored-read primitive as the spec describes it (§6, §4.3
step 2): the returned bytes are "placed into the supplied regions, in chain
order, starting from the first entry"; bytes of a region beyond the data are
left unchanged.  This is the refinement-comparison definition for the
`kos_readv` shim. -/
def vectoredFill : List (List Nat) → List Nat → List (List Nat)
  | [], _ => []
  | r :: rs, data =>
    (data.take r.length ++ r.drop (data.take r.length).length)
      :: vectoredFill rs (data.drop r.length)

/-- Return value of `ngx_readv_chain`: a byte count (`n ≥ 0`), `NGX_AGAIN`,
`NGX_ERROR`, or `stuck` when the model's read oracle is exhausted (no C
counterpart; every theorem supplies enough oracle entries). -/
inductive RvRet where
  | bytes (n : Nat)
  | again
  | error
  | stuck
deriving Repr, DecidableEq

/-- The errno classes the dispatcher distinguishes after a failed read. -/
inductive Errno where
  | eagain
  | eintr
  | other (code : Int)
deriving Repr, DecidableEq

/-- One result of the underlying `read` system call: a byte count, or a
failure with its errno. -/
inductive ReadRes where
  | ok (n : Nat)
  | err (e : Errno)
deriving Repr, DecidableEq

/-- The fields of the connection's read event (`ngx_event_t`) that
`ngx_readv_chain` reads or writes. -/
structure NgxEvent where
  ready : Bool
  eof : Bool
  error : Bool
  available : Int
  pending_eof : Bool
  kq_errno : Int
deriving Repr, DecidableEq

/-- Event-mechanism configuration: the runtime `ngx_event_flags` bits together
with the compile-time feature tests, folded into one record.
`useKqueue` = `NGX_HAVE_KQUEUE` and `NGX_USE_KQUEUE_EVENT`;
`useEpoll` = `NGX_HAVE_EPOLLRDHUP` and `NGX_USE_EPOLL_EVENT`;
`haveFion` = `NGX_HAVE_FIONREAD`; `rdhup` = `ngx_use_epoll_rdhup`;
`greedy` = `NGX_USE_GREEDY_EVENT`. -/
structure EventConf where
  useKqueue : Bool
  useEpoll : Bool
  haveFion : Bool
  rdhup : Bool
  greedy : Bool
deriving Repr, DecidableEq

/-- `SIZE_MAX` of the target platform (64-bit). -/
def SIZE_MAX : Int := 2 ^ 64 - 1

/-- The `n == 0` branch (lines 198-216): clear `ready`, set `eof`; under the
kqueue mechanism additionally reset `available` to zero; return 0. -/
def eofRet (conf : EventConf) (rev : NgxEvent) (rest : List ReadRes) :
    RvRet × NgxEvent × List ReadRes :=
  (RvRet.bytes 0,
   { rev with ready := false, eof := true,
              available := if conf.useKqueue then 0 else rev.available },
   rest)

/-- Modelled from the spec: `ngx_connection_error` is not part of this
repository; the spec says a fatal error marks the connection `error` and
propagates a connection-level fatal error, and the function's exit path
(lines 316-322) clears `ready` and, on `NGX_ERROR`, sets `c->read->error`. -/
def fatalRet (rev : NgxEvent) (rest : List ReadRes) : RvRet × NgxEvent × List ReadRes :=
  (RvRet.error, { rev with ready := false, error := true }, rest)

/-- Lines 277-299: the epoll-with-rdhup block and the generic short-read
fallback, applied after the FIONREAD hint update. -/
def readEpilogue (conf : EventConf) (size : Int) (n : Nat) (rev : NgxEvent)
    (rest : List ReadRes) : RvRet × NgxEvent × List ReadRes :=
  if conf.useEpoll = true ∧ conf.rdhup = true then
    if (n : Int) < size then
      (RvRet.bytes n,
       { rev with available := 0,
                  ready := if rev.pending_eof then rev.ready else false },
       rest)
    else (RvRet.bytes n, rev, rest)
  else if (n : Int) < size ∧ conf.greedy = false then
    (RvRet.bytes n, { rev with ready := false }, rest)
  else (RvRet.bytes n, rev, rest)

/-- Lines 218-299: the `n > 0` case.  Kqueue: subtract `n` from `available`,
clamp at `<= 0` to zero clearing `ready` unless `pending_eof`, and return.
FIONREAD: with a known non-negative hint subtract `n`, clamping to zero and
clearing `ready` only when the result is strictly negative; with an unknown
hint and a completely filled request (`n == size`) refresh the hint via the
`ngx_socket_nread` oracle, treating a query failure as fatal. -/
def afterRead (conf : EventConf) (size : Int) (nr : Option Int) (rev : NgxEvent)
    (n : Nat) (rest : List ReadRes) : RvRet × NgxEvent × List ReadRes :=
  if conf.useKqueue = true then
    if rev.available - n ≤ 0 then
      (RvRet.bytes n,
       { rev with available := 0,
                  ready := if rev.pending_eof then rev.ready else false },
       rest)
    else (RvRet.bytes n, { rev with available := rev.available - n }, rest)
  else if conf.haveFion = true ∧ 0 ≤ rev.available then
    (if rev.available - n < 0 then
      readEpilogue conf size n { rev with available := 0, ready := false } rest
    else
      readEpilogue conf size n { rev with available := rev.available - n } rest)
  else if conf.haveFion = true ∧ (n : Int) = size then
    match nr with
    | none => fatalRet rev rest
    | some a => readEpilogue conf size n { rev with available := a } rest
  else readEpilogue conf size n rev rest

/-- The read-and-interpret loop (lines 192-322) over the `kos_readv` shim
(lines 13-82).  The shim's own validation happens before any `read`: an empty
vector, a negative length or a total above `SIZE_MAX` yield `EINVAL`, which
the dispatcher treats as fatal; a zero total returns 0 without reading, which
the dispatcher treats as EOF.  Otherwise one oracle entry is consumed; `EINTR`
retries the whole step, `EAGAIN` returns `NGX_AGAIN` with `ready` cleared, any
other errno is fatal. -/
def readLoop (conf : EventConf) (size : Int) (iovs : List Iovec)
    (nr : Option Int) (rev : NgxEvent) :
    List ReadRes → RvRet × NgxEvent × List ReadRes
  | [] =>
    if iovs = [] ∨ (∃ v ∈ iovs, v.iov_len < 0) ∨ SIZE_MAX < ivTotal iovs then
      fatalRet rev []
    else if ivTotal iovs = 0 then
      eofRet conf rev []
    else (RvRet.stuck, rev, [])
  | r :: rest =>
    if iovs = [] ∨ (∃ v ∈ iovs, v.iov_len < 0) ∨ SIZE_MAX < ivTotal iovs then
      fatalRet rev (r :: rest)
    else if ivTotal iovs = 0 then
      eofRet conf rev (r :: rest)
    else
      match r with
      | ReadRes.ok n =>
        if n = 0 then eofRet conf rev rest
        else afterRead conf size nr rev n rest
      | ReadRes.err Errno.eintr => readLoop conf size iovs nr rev rest
      | ReadRes.err Errno.eagain =>
        (RvRet.again, { rev with ready := false }, rest)
      | ReadRes.err (Errno.other _) => fatalRet rev rest

/-- `ngx_readv_chain` (lines 85-323): the kqueue zero-available gate, the
epoll zero-available gate, the Coalescer, then the read loop.  The result is
the return value, the final event state, and the unconsumed suffix of the
read oracle (so "no read was issued" is expressible as the oracle being
returned unchanged). -/
def ngx_readv_chain (conf : EventConf) (rev : NgxEvent) (chain : List NgxBuf)
    (limit : Int) (reads : List ReadRes) (nr : Option Int) :
    RvRet × NgxEvent × List ReadRes :=
  if conf.useKqueue = true ∧ rev.available = 0 then
    if rev.pending_eof then
      if rev.kq_errno ≠ 0 then
        (RvRet.error, { rev with ready := false, eof := true, error := true }, reads)
      else
        (RvRet.bytes 0, { rev with ready := false, eof := true }, reads)
    else (RvRet.again, rev, reads)
  else if conf.useEpoll = true ∧ rev.available = 0 ∧ rev.pending_eof = false then
    (RvRet.again, rev, reads)
  else
    readLoop conf (ngx_coalesce NGX_IOVS_PREALLOCATE limit chain).size
      (ngx_coalesce NGX_IOVS_PREALLOCATE limit chain).iovs nr rev reads

/-! ## Helper lemmas about the entry vector -/

theorem addToLast_length : ∀ (iovs : List Iovec) (n : Int),
    (addToLast iovs n).length = iovs.length
  | [], _ => rfl
  | [_], _ => rfl
  | v :: w :: ws, n => by
    simp only [addToLast, List.length_cons, addToLast_length (w :: ws) n]

theorem addToLast_ne (iovs : List Iovec) (n : Int) (h : iovs ≠ []) :
    addToLast iovs n ≠ [] := by
  intro he
  have hlen := addToLast_length iovs n
  rw [he] at hlen
  exact h (List.length_eq_zero.mp hlen.symm)

theorem addToLast_total : ∀ (iovs : List Iovec) (n : Int), iovs ≠ [] →
    ivTotal (addToLast iovs n) = ivTotal iovs + n
  | [], _, h => absurd rfl h
  | [v], n, _ => by simp [addToLast, ivTotal]
  | v :: w :: ws, n, _ => by
    simp only [addToLast, ivTotal, addToLast_total (w :: ws) n (by simp)]
    ring

theorem addToLast_zero : ∀ iovs : List Iovec, addToLast iovs 0 = iovs
  | [] => rfl
  | [v] => by simp [addToLast]
  | v :: w :: ws => by simp only [addToLast, addToLast_zero (w :: ws)]

theorem ivTotal_append (xs ys : List Iovec) :
    ivTotal (xs ++ ys) = ivTotal xs + ivTotal ys := by
  induction xs with
  | nil => simp [ivTotal]
  | cons v vs ih => simp only [List.cons_append, ivTotal, List.append_eq, ih]; ring

/-! ## Coalescer invariants -/

theorem coalesceAux_total (cap : Nat) (limit : Int) :
    ∀ (chain : List NgxBuf) (prev : Option Nat) (iovs : List Iovec) (size : Int),
    (prev = none ∨ iovs ≠ []) →
    ivTotal (coalesceAux cap limit chain prev iovs size).iovs
        - (coalesceAux cap limit chain prev iovs size).size
      = ivTotal iovs - size
  | [], prev, iovs, size, _ => by simp [coalesceAux]
  | b :: rest, prev, iovs, size, hinv => by
    rw [coalesceAux]
    split_ifs with h1 h2 h3
    · simp
    · have hne : iovs ≠ [] := by
        rcases hinv with h | h
        · rw [h] at h2; cases h2
        · exact h
      rw [coalesceAux_total cap limit rest _ _ _ (Or.inr (addToLast_ne _ _ hne))]
      rw [addToLast_total _ _ hne]
      ring
    · simp
    · rw [coalesceAux_total cap limit rest _ _ _ (Or.inr (by simp))]
      rw [ivTotal_append]
      simp only [ivTotal]
      ring

theorem coalesceLen_le (limit size : Int) (b : NgxBuf) (hl : limit ≠ 0) :
    size + coalesceLen limit size b ≤ limit := by
  unfold coalesceLen
  split_ifs with h1
  · omega
  · push_neg at h1
    have := h1 hl
    omega

theorem coalesceAux_le (cap : Nat) (limit : Int) (hl : limit ≠ 0) :
    ∀ (chain : List NgxBuf) (prev : Option Nat) (iovs : List Iovec) (size : Int),
    size ≤ limit → (coalesceAux cap limit chain prev iovs size).size ≤ limit
  | [], _, iovs, size, h => by simpa [coalesceAux] using h
  | b :: rest, prev, iovs, size, h => by
    rw [coalesceAux]
    split_ifs with h1 h2 h3
    · simpa using h
    · exact coalesceAux_le cap limit hl rest _ _ _ (coalesceLen_le limit size b hl)
    · simpa using h
    · exact coalesceAux_le cap limit hl rest _ _ _ (coalesceLen_le limit size b hl)

theorem coalesceAux_stop (cap : Nat) (limit : Int) (hl : limit ≠ 0)
    (chain : List NgxBuf) (prev : Option Nat) (iovs : List Iovec) (size : Int)
    (h : limit ≤ size) : (coalesceAux cap limit chain prev iovs size).size = size := by
  cases chain with
  | nil => simp [coalesceAux]
  | cons b rest => rw [coalesceAux, if_pos ⟨hl, h⟩]

theorem coalesceAux_reach (cap : Nat) (limit : Int) (hl : limit ≠ 0) :
    ∀ (chain : List NgxBuf) (prev : Option Nat) (iovs : List Iovec) (size : Int),
    size ≤ limit → limit ≤ size + totalFree chain →
    (coalesceAux cap limit chain prev iovs size).iovs.length < cap →
    (coalesceAux cap limit chain prev iovs size).size = limit
  | [], prev, iovs, size, h1, h2, _ => by
    simp only [coalesceAux, totalFree] at h2 ⊢
    omega
  | b :: rest, prev, iovs, size, h1, h2, h3 => by
    rw [coalesceAux] at h3 ⊢
    split_ifs at h3 ⊢ with hbrk hmerge hcap
    · show size = limit
      omega
    · by_cases htr : limit < size + bufFree b
      · have hn : coalesceLen limit size b = limit - size := by
          simp [coalesceLen, hl, htr]
        rw [hn]
        have : size + (limit - size) = limit := by ring
        rw [this]
        exact coalesceAux_stop cap limit hl rest _ _ _ le_rfl
      · have hn : coalesceLen limit size b = bufFree b := by
          simp [coalesceLen, htr]
        rw [hn] at h3 ⊢
        exact coalesceAux_reach cap limit hl rest _ _ _
          (by omega) (by simp only [totalFree] at h2; omega) h3
    · have h3' : iovs.length < cap := h3
      omega
    · by_cases htr : limit < size + bufFree b
      · have hn : coalesceLen limit size b = limit - size := by
          simp [coalesceLen, hl, htr]
        rw [hn]
        have : size + (limit - size) = limit := by ring
        rw [this]
        exact coalesceAux_stop cap limit hl rest _ _ _ le_rfl
      · have hn : coalesceLen limit size b = bufFree b := by
          simp [coalesceLen, htr]
        rw [hn] at h3 ⊢
        exact coalesceAux_reach cap limit hl rest _ _ _
          (by omega) (by simp only [totalFree] at h2; omega) h3

theorem coalesceAux_nolimit (cap : Nat) :
    ∀ (chain : List NgxBuf) (prev : Option Nat) (iovs : List Iovec) (size : Int),
    (prev = none ∨ iovs ≠ []) →
    iovs.length + pushCount prev chain ≤ cap →
    (coalesceAux cap 0 chain prev iovs size).iovs.length
        = iovs.length + pushCount prev chain ∧
    ivTotal (coalesceAux cap 0 chain prev iovs size).iovs
        = ivTotal iovs + totalFree chain
  | [], prev, iovs, size, _, _ => by simp [coalesceAux, pushCount, totalFree]
  | b :: rest, prev, iovs, size, hinv, hcap => by
    rw [coalesceAux]
    have hbrk : ¬((0:Int) ≠ 0 ∧ (0:Int) ≤ size) := by simp
    rw [if_neg hbrk]
    have hlen : coalesceLen 0 size b = bufFree b := by simp [coalesceLen]
    by_cases hm : prev = some b.last
    · rw [if_pos hm]
      have hne : iovs ≠ [] := by
        rcases hinv with h | h
        · rw [h] at hm; cases hm
        · exact h
      have hpc : pushCount prev (b :: rest) = pushCount (some b.end_) rest := by
        simp [pushCount, hm]
      obtain ⟨ih1, ih2⟩ := coalesceAux_nolimit cap rest (some b.end_)
        (addToLast iovs (coalesceLen 0 size b)) (size + coalesceLen 0 size b)
        (Or.inr (addToLast_ne _ _ hne))
        (by rw [addToLast_length]; rw [hpc] at hcap; exact hcap)
      refine ⟨?_, ?_⟩
      · rw [ih1, addToLast_length, hpc]
      · rw [ih2, addToLast_total _ _ hne, hlen]
        simp only [totalFree]
        ring
    · rw [if_neg hm]
      have hpc : pushCount prev (b :: rest) = 1 + pushCount (some b.end_) rest := by
        simp [pushCount, hm]
      have hne2 : iovs.length ≠ cap := by
        rw [hpc] at hcap
        omega
      rw [if_neg hne2]
      obtain ⟨ih1, ih2⟩ := coalesceAux_nolimit cap rest (some b.end_)
        (iovs ++ [⟨b.last, coalesceLen 0 size b⟩]) (size + coalesceLen 0 size b)
        (Or.inr (by simp))
        (by rw [List.length_append, List.length_singleton]; rw [hpc] at hcap; omega)
      refine ⟨?_, ?_⟩
      · rw [ih1, List.length_append, List.length_singleton, hpc]
        omega
      · rw [ih2, ivTotal_append, hlen]
        simp only [ivTotal, totalFree]
        ring

theorem coalesceAux_len (cap : Nat) (limit : Int) :
    ∀ (chain : List NgxBuf) (prev : Option Nat) (iovs : List Iovec) (size : Int),
    iovs.length ≤ (coalesceAux cap limit chain prev iovs size).iovs.length
  | [], _, iovs, size => by simp [coalesceAux]
  | b :: rest, prev, iovs, size => by
    rw [coalesceAux]
    split_ifs with h1 h2 h3
    · simp
    · have := coalesceAux_len cap limit rest (some b.end_)
        (addToLast iovs (coalesceLen limit size b)) (size + coalesceLen limit size b)
      rw [addToLast_length] at this
      exact this
    · simp
    · have := coalesceAux_len cap limit rest (some b.end_)
        (iovs ++ [⟨b.last, coalesceLen limit size b⟩]) (size + coalesceLen limit size b)
      rw [List.length_append, List.length_singleton] at this
      omega

theorem coalesceAux_zero (cap : Nat) (limit : Int) (hl : 0 ≤ limit) :
    ∀ (chain : List NgxBuf) (prev : Option Nat) (iovs : List Iovec),
    (∀ b ∈ chain, b.last = b.end_) → (∀ v ∈ iovs, v.iov_len = 0) →
    (∀ v ∈ (coalesceAux cap limit chain prev iovs 0).iovs, v.iov_len = 0) ∧
    (coalesceAux cap limit chain prev iovs 0).size = 0
  | [], prev, iovs, _, hz => by simpa [coalesceAux] using hz
  | b :: rest, prev, iovs, hfull, hz => by
    have hfree : bufFree b = 0 := by
      have := hfull b (by simp)
      simp [bufFree, this]
    have hn : coalesceLen limit 0 b = 0 := by
      simp only [coalesceLen, hfree]
      split_ifs with h
      · omega
      · rfl
    rw [coalesceAux]
    have hbrk : ¬(limit ≠ 0 ∧ limit ≤ (0:Int)) := by omega
    rw [if_neg hbrk, hn]
    by_cases hm : prev = some b.last
    · rw [if_pos hm, addToLast_zero]
      have h0 : (0:Int) + 0 = 0 := by ring
      rw [h0]
      exact coalesceAux_zero cap limit hl rest (some b.end_) iovs
        (fun x hx => hfull x (by simp [hx])) hz
    · rw [if_neg hm]
      split_ifs with hc
      · exact ⟨hz, rfl⟩
      · have h0 : (0:Int) + 0 = 0 := by ring
        rw [h0]
        exact coalesceAux_zero cap limit hl rest (some b.end_) _
          (fun x hx => hfull x (by simp [hx]))
          (by intro v hv
              rcases List.mem_append.mp hv with h | h
              · exact hz v h
              · simp at h
                rw [h])

theorem pushCount_adjFails : ∀ (chain : List NgxBuf) (b : NgxBuf),
    pushCount (some b.end_) chain = adjFails (b :: chain)
  | [], b => rfl
  | b2 :: rest, b => by
    simp only [pushCount, adjFails, pushCount_adjFails rest b2, Option.some.injEq]

/-! ## Claim theorems about the Coalescer -/

/-- Claim C2: with a positive `limit`, the Coalescer's cumulative requested
size never exceeds `limit` (the last region being truncated on overshoot, so
the entries' total never over-requests either), and when the chain's free
space is at least `limit` and the entry vector's capacity was not exhausted
the cumulative size equals `limit` exactly. -/
theorem coalesce_limit (chain : List NgxBuf) (limit : Int) (hl : 0 < limit) :
    (ngx_coalesce NGX_IOVS_PREALLOCATE limit chain).size ≤ limit ∧
    ivTotal (ngx_coalesce NGX_IOVS_PREALLOCATE limit chain).iovs ≤ limit ∧
    (limit ≤ totalFree chain →
      (ngx_coalesce NGX_IOVS_PREALLOCATE limit chain).iovs.length < NGX_IOVS_PREALLOCATE →
      (ngx_coalesce NGX_IOVS_PREALLOCATE limit chain).size = limit) := by
  have hl0 : limit ≠ 0 := by omega
  have hle := coalesceAux_le NGX_IOVS_PREALLOCATE limit hl0 chain none [] 0 (by omega)
  have htot := coalesceAux_total NGX_IOVS_PREALLOCATE limit chain none [] 0 (Or.inl rfl)
  simp only [ivTotal] at htot
  refine ⟨hle, by simp only [ngx_coalesce] at *; omega, ?_⟩
  intro h1 h2
  exact coalesceAux_reach NGX_IOVS_PREALLOCATE limit hl0 chain none [] 0
    (by omega) (by omega) h2

/-- Claim C3: with no limit and enough entry capacity, consecutive buffers
whose free regions are contiguous (`b1.end_ = b2.last`) are merged into one
scatter entry rather than two: the number of entries is exactly one plus the
number of consecutive pairs failing the adjacency test, and the entries cover
the total free length of the chain. -/
theorem coalesce_adjacency (chain : List NgxBuf) (hne : chain ≠ [])
    (hcap : 1 + adjFails chain ≤ NGX_IOVS_PREALLOCATE) :
    (ngx_coalesce NGX_IOVS_PREALLOCATE 0 chain).iovs.length = 1 + adjFails chain ∧
    ivTotal (ngx_coalesce NGX_IOVS_PREALLOCATE 0 chain).iovs = totalFree chain := by
  cases chain with
  | nil => exact absurd rfl hne
  | cons b rest =>
    have hpc : pushCount none (b :: rest) = 1 + adjFails (b :: rest) := by
      simp [pushCount, pushCount_adjFails rest b]
    obtain ⟨h1, h2⟩ := coalesceAux_nolimit NGX_IOVS_PREALLOCATE (b :: rest) none [] 0
      (Or.inl rfl) (by simp only [List.length_nil, Nat.zero_add, hpc]; exact hcap)
    constructor
    · simpa [ngx_coalesce, hpc] using h1
    · simpa [ngx_coalesce, ivTotal] using h2

/-! ## Read-dispatcher lemmas -/

theorem readValidCond (iovs : List Iovec)
    (h1 : iovs ≠ []) (h2 : ∀ v ∈ iovs, 0 ≤ v.iov_len) (h3 : ivTotal iovs ≤ SIZE_MAX) :
    ¬(iovs = [] ∨ (∃ v ∈ iovs, v.iov_len < 0) ∨ SIZE_MAX < ivTotal iovs) := by
  rintro (h | ⟨v, hv, hlt⟩ | h)
  · exact h1 h
  · exact absurd (h2 v hv) (not_le.mpr hlt)
  · exact absurd h3 (not_le.mpr h)

theorem gate_pass (conf : EventConf) (rev : NgxEvent) (chain : List NgxBuf)
    (limit : Int) (reads : List ReadRes) (nr : Option Int)
    (hkq : conf.useKqueue = true → rev.available ≠ 0)
    (hep : conf.useEpoll = true → rev.available = 0 → rev.pending_eof = true) :
    ngx_readv_chain conf rev chain limit reads nr
      = readLoop conf (ngx_coalesce NGX_IOVS_PREALLOCATE limit chain).size
          (ngx_coalesce NGX_IOVS_PREALLOCATE limit chain).iovs nr rev reads := by
  have g1 : ¬(conf.useKqueue = true ∧ rev.available = 0) := by
    rintro ⟨he, ha⟩; exact hkq he ha
  have g2 : ¬(conf.useEpoll = true ∧ rev.available = 0 ∧ rev.pending_eof = false) := by
    rintro ⟨he, ha, hp⟩
    rw [hep he ha] at hp
    cases hp
  unfold ngx_readv_chain
  rw [if_neg g1, if_neg g2]

theorem readLoop_ok (conf : EventConf) (size : Int) (iovs : List Iovec)
    (nr : Option Int) (rev : NgxEvent) (n : Nat) (rest : List ReadRes)
    (h1 : iovs ≠ []) (h2 : ∀ v ∈ iovs, 0 ≤ v.iov_len) (h3 : ivTotal iovs ≤ SIZE_MAX)
    (h4 : ivTotal iovs ≠ 0) :
    readLoop conf size iovs nr rev (ReadRes.ok n :: rest)
      = if n = 0 then eofRet conf rev rest else afterRead conf size nr rev n rest := by
  rw [readLoop, if_neg (readValidCond iovs h1 h2 h3), if_neg h4]

theorem readLoop_eintr (conf : EventConf) (size : Int) (iovs : List Iovec)
    (nr : Option Int) (rev : NgxEvent) (rest : List ReadRes)
    (h1 : iovs ≠ []) (h2 : ∀ v ∈ iovs, 0 ≤ v.iov_len) (h3 : ivTotal iovs ≤ SIZE_MAX)
    (h4 : ivTotal iovs ≠ 0) :
    readLoop conf size iovs nr rev (ReadRes.err Errno.eintr :: rest)
      = readLoop conf size iovs nr rev rest := by
  rw [readLoop, if_neg (readValidCond iovs h1 h2 h3), if_neg h4]

theorem readLoop_eagain (conf : EventConf) (size : Int) (iovs : List Iovec)
    (nr : Option Int) (rev : NgxEvent) (rest : List ReadRes)
    (h1 : iovs ≠ []) (h2 : ∀ v ∈ iovs, 0 ≤ v.iov_len) (h3 : ivTotal iovs ≤ SIZE_MAX)
    (h4 : ivTotal iovs ≠ 0) :
    readLoop conf size iovs nr rev (ReadRes.err Errno.eagain :: rest)
      = (RvRet.again, { rev with ready := false }, rest) := by
  rw [readLoop, if_neg (readValidCond iovs h1 h2 h3), if_neg h4]

theorem readLoop_fatal (conf : EventConf) (size : Int) (iovs : List Iovec)
    (nr : Option Int) (rev : NgxEvent) (c : Int) (rest : List ReadRes)
    (h1 : iovs ≠ []) (h2 : ∀ v ∈ iovs, 0 ≤ v.iov_len) (h3 : ivTotal iovs ≤ SIZE_MAX)
    (h4 : ivTotal iovs ≠ 0) :
    readLoop conf size iovs nr rev (ReadRes.err (Errno.other c) :: rest)
      = (RvRet.error, { rev with ready := false, error := true }, rest) := by
  rw [readLoop, if_neg (readValidCond iovs h1 h2 h3), if_neg h4]
  rfl

theorem readEpilogue_fst (conf : EventConf) (size : Int) (n : Nat) (rev : NgxEvent)
    (rest : List ReadRes) : (readEpilogue conf size n rev rest).1 = RvRet.bytes n := by
  unfold readEpilogue
  split_ifs <;> rfl

theorem afterRead_fst (conf : EventConf) (size : Int) (nr : Option Int)
    (rev : NgxEvent) (n : Nat) (rest : List ReadRes) (hav : 0 ≤ rev.available) :
    (afterRead conf size nr rev n rest).1 = RvRet.bytes n := by
  unfold afterRead
  split_ifs with h1 h2 h3 h4 h5
  all_goals try rfl
  all_goals try exact readEpilogue_fst ..
  rename_i hsz
  exact absurd ⟨hsz.1, hav⟩ h4

theorem readEpilogue_spec (conf : EventConf) (size : Int) (n : Nat) (rev : NgxEvent)
    (rest : List ReadRes) :
    readEpilogue conf size n rev rest
      = (RvRet.bytes n,
         (if conf.useEpoll = true ∧ conf.rdhup = true then
            (if (n : Int) < size then
              { rev with available := 0,
                         ready := if rev.pending_eof then rev.ready else false }
             else rev)
          else if (n : Int) < size ∧ conf.greedy = false then
            { rev with ready := false }
          else rev),
         rest) := by
  unfold readEpilogue
  split_ifs <;> rfl


theorem readEpilogue_available (conf : EventConf) (size : Int) (n : Nat)
    (rev : NgxEvent) (rest : List ReadRes) :
    (readEpilogue conf size n rev rest).2.1.available
      = if conf.useEpoll = true ∧ conf.rdhup = true ∧ (n : Int) < size then 0
        else rev.available := by
  unfold readEpilogue
  split_ifs <;> simp_all

theorem readEpilogue_ready_noepoll (conf : EventConf) (size : Int) (n : Nat)
    (rev : NgxEvent) (rest : List ReadRes)
    (hnep : ¬(conf.useEpoll = true ∧ conf.rdhup = true)) :
    (readEpilogue conf size n rev rest).2.1.ready
      = if (n : Int) < size ∧ conf.greedy = false then false else rev.ready := by
  unfold readEpilogue
  rw [if_neg hnep]
  split_ifs <;> simp

theorem afterRead_available (conf : EventConf) (size : Int) (nr : Option Int)
    (rev : NgxEvent) (n : Nat) (rest : List ReadRes) (hav : 0 ≤ rev.available) :
    0 ≤ (afterRead conf size nr rev n rest).2.1.available ∧
    (conf.useKqueue = true →
      (afterRead conf size nr rev n rest).2.1.available = max (rev.available - n) 0) ∧
    (conf.useKqueue = false → conf.haveFion = true →
      ¬(conf.useEpoll = true ∧ conf.rdhup = true) →
      (afterRead conf size nr rev n rest).2.1.available = max (rev.available - n) 0) ∧
    (conf.useKqueue = false → conf.haveFion = true →
      conf.useEpoll = true → conf.rdhup = true →
      (afterRead conf size nr rev n rest).2.1.available
        = if (n : Int) < size then 0 else max (rev.available - n) 0) := by
  unfold afterRead
  by_cases h1 : conf.useKqueue = true
  · rw [if_pos h1]
    by_cases h2 : rev.available - n ≤ 0
    · rw [if_pos h2]
      exact ⟨by simp, fun _ => by simp; omega,
             fun hk => absurd h1 (by simp [hk]), fun hk => absurd h1 (by simp [hk])⟩
    · rw [if_neg h2]
      exact ⟨by simp; omega, fun _ => by simp; omega,
             fun hk => absurd h1 (by simp [hk]), fun hk => absurd h1 (by simp [hk])⟩
  · rw [if_neg h1]
    by_cases h3 : conf.haveFion = true ∧ 0 ≤ rev.available
    · rw [if_pos h3]
      by_cases h4 : rev.available - n < 0
      · rw [if_pos h4]
        refine ⟨?_, fun hk => absurd hk h1, fun _ _ hnep => ?_, fun _ _ he hr => ?_⟩
        · rw [readEpilogue_available]
          split_ifs <;> simp
        · rw [readEpilogue_available,
              if_neg (by rintro ⟨a, b, _⟩; exact hnep ⟨a, b⟩)]
          simp
          omega
        · rw [readEpilogue_available]
          by_cases hlt : (n : Int) < size
          · rw [if_pos ⟨he, hr, hlt⟩, if_pos hlt]
          · rw [if_neg (by rintro ⟨_, _, hx⟩; exact hlt hx), if_neg hlt]
            simp
            omega
      · rw [if_neg h4]
        refine ⟨?_, fun hk => absurd hk h1, fun _ _ hnep => ?_, fun _ _ he hr => ?_⟩
        · rw [readEpilogue_available]
          split_ifs <;> (simp; try omega)
        · rw [readEpilogue_available,
              if_neg (by rintro ⟨a, b, _⟩; exact hnep ⟨a, b⟩)]
          simp
          omega
        · rw [readEpilogue_available]
          by_cases hlt : (n : Int) < size
          · rw [if_pos ⟨he, hr, hlt⟩, if_pos hlt]
          · rw [if_neg (by rintro ⟨_, _, hx⟩; exact hlt hx), if_neg hlt]
            simp
            omega
    · rw [if_neg h3]
      by_cases h5 : conf.haveFion = true ∧ (n : Int) = size
      · exact absurd ⟨h5.1, hav⟩ h3
      · rw [if_neg h5]
        refine ⟨?_, fun hk => absurd hk h1,
                fun _ hf _ => absurd ⟨hf, hav⟩ h3, fun _ hf _ _ => absurd ⟨hf, hav⟩ h3⟩
        rw [readEpilogue_available]
        split_ifs <;> omega

theorem afterRead_fion (conf : EventConf) (size : Int) (nr : Option Int)
    (rev : NgxEvent) (n : Nat) (rest : List ReadRes) (hav : 0 ≤ rev.available)
    (hkq : conf.useKqueue = false) (hf : conf.haveFion = true)
    (hnep : ¬(conf.useEpoll = true ∧ conf.rdhup = true)) :
    (afterRead conf size nr rev n rest).1 = RvRet.bytes n ∧
    (afterRead conf size nr rev n rest).2.1.available = max (rev.available - n) 0 ∧
    (afterRead conf size nr rev n rest).2.1.ready
      = (if rev.available - n < 0 ∨ ((n : Int) < size ∧ conf.greedy = false)
         then false else rev.ready) := by
  unfold afterRead
  rw [if_neg (by simp [hkq]), if_pos ⟨hf, hav⟩]
  by_cases hcl : rev.available - n < 0
  · rw [if_pos hcl]
    refine ⟨readEpilogue_fst .., ?_, ?_⟩
    · rw [readEpilogue_available,
          if_neg (by rintro ⟨a, b, _⟩; exact hnep ⟨a, b⟩)]
      simp
      omega
    · rw [readEpilogue_ready_noepoll _ _ _ _ _ hnep, if_pos (Or.inl hcl)]
      split_ifs <;> simp
  · rw [if_neg hcl]
    refine ⟨readEpilogue_fst .., ?_, ?_⟩
    · rw [readEpilogue_available,
          if_neg (by rintro ⟨a, b, _⟩; exact hnep ⟨a, b⟩)]
      simp
      omega
    · rw [readEpilogue_ready_noepoll _ _ _ _ _ hnep]
      by_cases hsr : (n : Int) < size ∧ conf.greedy = false
      · rw [if_pos hsr, if_pos (Or.inr hsr)]
      · rw [if_neg hsr, if_neg (by rintro (h | h); exact hcl h; exact hsr h)]

/-! ## Claim theorems about the Read Dispatcher -/

/-- Claim C1: under the availability-counting (kqueue) mechanism with a zero
available hint: without `pending_eof` the call returns would-block with no
read issued and no state change; with `pending_eof` it clears `ready`, sets
`eof`, and then returns a fatal error additionally setting `error` when a
kqueue-reported errno is present, else a zero-byte result - in every case
without issuing a read (the read oracle is returned untouched). -/
theorem kqueue_zero_gate (conf : EventConf) (rev : NgxEvent) (chain : List NgxBuf)
    (limit : Int) (reads : List ReadRes) (nr : Option Int)
    (hkq : conf.useKqueue = true) (hav : rev.available = 0) :
    (rev.pending_eof = false →
      ngx_readv_chain conf rev chain limit reads nr = (RvRet.again, rev, reads)) ∧
    (rev.pending_eof = true → rev.kq_errno = 0 →
      ngx_readv_chain conf rev chain limit reads nr
        = (RvRet.bytes 0, { rev with ready := false, eof := true }, reads)) ∧
    (rev.pending_eof = true → rev.kq_errno ≠ 0 →
      ngx_readv_chain conf rev chain limit reads nr
        = (RvRet.error, { rev with ready := false, eof := true, error := true }, reads)) := by
  unfold ngx_readv_chain
  rw [if_pos ⟨hkq, hav⟩]
  refine ⟨fun hp => ?_, fun hp he => ?_, fun hp he => ?_⟩
  · rw [if_neg (by simp [hp])]
  · rw [if_pos hp, if_neg (not_not_intro he)]
  · rw [if_pos hp, if_pos he]

/-- Claim C7 (amended): under the edge-notified (epoll) mechanism the call
returns would-block without issuing a read when `pending_eof` is unset and
additionally the available hint is zero; the gate is not unconditional. -/
theorem epoll_zero_gate (conf : EventConf) (rev : NgxEvent) (chain : List NgxBuf)
    (limit : Int) (reads : List ReadRes) (nr : Option Int)
    (hkq : conf.useKqueue = false) (hep : conf.useEpoll = true)
    (hav : rev.available = 0) (hpe : rev.pending_eof = false) :
    ngx_readv_chain conf rev chain limit reads nr = (RvRet.again, rev, reads) := by
  unfold ngx_readv_chain
  rw [if_neg (by rintro ⟨h, _⟩; rw [hkq] at h; cases h), if_pos ⟨hep, hav, hpe⟩]

/-- Claim C7 counterexample: under epoll with `pending_eof` unset but a
nonzero available hint (here 5) the call does not return would-block; it
issues the read and returns its 1 byte. -/
theorem epoll_gate_cex :
    (ngx_readv_chain ⟨false, true, true, true, false⟩
        ⟨true, false, false, 5, false, 0⟩ [⟨0, 3⟩] 0 [ReadRes.ok 1] none).1
      = RvRet.bytes 1 ∧ RvRet.bytes 1 ≠ RvRet.again := by
  constructor
  · rfl
  · decide

/-- Claim C5: when the read primitive fails: EAGAIN yields would-block with
`ready` cleared and no retry; any other (non-EINTR) errno is fatal, clearing
`ready` and setting `error`; EINTR retries the whole read step invisibly, so
a subsequent success of `n` bytes yields `Bytes n`. -/
theorem read_error_dispatch (conf : EventConf) (rev : NgxEvent) (chain : List NgxBuf)
    (limit : Int) (nr : Option Int)
    (hkq : conf.useKqueue = true → rev.available ≠ 0)
    (hep : conf.useEpoll = true → rev.available = 0 → rev.pending_eof = true)
    (hne : (ngx_coalesce NGX_IOVS_PREALLOCATE limit chain).iovs ≠ [])
    (hnn : ∀ v ∈ (ngx_coalesce NGX_IOVS_PREALLOCATE limit chain).iovs, 0 ≤ v.iov_len)
    (hsm : ivTotal (ngx_coalesce NGX_IOVS_PREALLOCATE limit chain).iovs ≤ SIZE_MAX)
    (hpos : ivTotal (ngx_coalesce NGX_IOVS_PREALLOCATE limit chain).iovs ≠ 0) :
    (∀ rest, ngx_readv_chain conf rev chain limit (ReadRes.err Errno.eagain :: rest) nr
        = (RvRet.again, { rev with ready := false }, rest)) ∧
    (∀ c rest,
      ngx_readv_chain conf rev chain limit (ReadRes.err (Errno.other c) :: rest) nr
        = (RvRet.error, { rev with ready := false, error := true }, rest)) ∧
    (∀ rest, ngx_readv_chain conf rev chain limit (ReadRes.err Errno.eintr :: rest) nr
        = ngx_readv_chain conf rev chain limit rest nr) ∧
    (∀ n rest, n ≠ 0 → 0 ≤ rev.available →
      (ngx_readv_chain conf rev chain limit
          (ReadRes.err Errno.eintr :: ReadRes.ok n :: rest) nr).1
        = RvRet.bytes n) := by
  refine ⟨fun rest => ?_, fun c rest => ?_, fun rest => ?_, fun n rest hn hav => ?_⟩
  · rw [gate_pass conf rev chain limit _ nr hkq hep,
        readLoop_eagain _ _ _ _ _ _ hne hnn hsm hpos]
  · rw [gate_pass conf rev chain limit _ nr hkq hep,
        readLoop_fatal _ _ _ _ _ _ _ hne hnn hsm hpos]
  · rw [gate_pass conf rev chain limit _ nr hkq hep,
        gate_pass conf rev chain limit rest nr hkq hep,
        readLoop_eintr _ _ _ _ _ _ hne hnn hsm hpos]
  · rw [gate_pass conf rev chain limit _ nr hkq hep,
        readLoop_eintr _ _ _ _ _ _ hne hnn hsm hpos,
        readLoop_ok _ _ _ _ _ _ _ hne hnn hsm hpos, if_neg hn]
    exact afterRead_fst _ _ _ _ _ _ hav

/-- Claim C4 (amended): with a non-negative prior hint and a successful read
of `n` bytes the hint afterwards is never negative; it equals
`max (h - n) 0` under the kqueue mechanism and under the FIONREAD mechanism
when the epoll-with-rdhup block does not run; under epoll-with-rdhup a short
read (`n < size`) resets the hint to 0 instead of `h - n`. -/
theorem available_never_negative (conf : EventConf) (rev : NgxEvent)
    (chain : List NgxBuf) (limit : Int) (n : Nat) (rest : List ReadRes)
    (nr : Option Int)
    (hn : n ≠ 0) (hav : 0 ≤ rev.available)
    (hkq : conf.useKqueue = true → rev.available ≠ 0)
    (hep : conf.useEpoll = true → rev.available = 0 → rev.pending_eof = true)
    (hne : (ngx_coalesce NGX_IOVS_PREALLOCATE limit chain).iovs ≠ [])
    (hnn : ∀ v ∈ (ngx_coalesce NGX_IOVS_PREALLOCATE limit chain).iovs, 0 ≤ v.iov_len)
    (hsm : ivTotal (ngx_coalesce NGX_IOVS_PREALLOCATE limit chain).iovs ≤ SIZE_MAX)
    (hpos : ivTotal (ngx_coalesce NGX_IOVS_PREALLOCATE limit chain).iovs ≠ 0) :
    0 ≤ (ngx_readv_chain conf rev chain limit (ReadRes.ok n :: rest) nr).2.1.available ∧
    (conf.useKqueue = true →
      (ngx_readv_chain conf rev chain limit (ReadRes.ok n :: rest) nr).2.1.available
        = max (rev.available - n) 0) ∧
    (conf.useKqueue = false → conf.haveFion = true →
      ¬(conf.useEpoll = true ∧ conf.rdhup = true) →
      (ngx_readv_chain conf rev chain limit (ReadRes.ok n :: rest) nr).2.1.available
        = max (rev.available - n) 0) ∧
    (conf.useKqueue = false → conf.haveFion = true →
      conf.useEpoll = true → conf.rdhup = true →
      (ngx_readv_chain conf rev chain limit (ReadRes.ok n :: rest) nr).2.1.available
        = if (n : Int) < (ngx_coalesce NGX_IOVS_PREALLOCATE limit chain).size then 0
          else max (rev.available - n) 0) := by
  have hrw : ngx_readv_chain conf rev chain limit (ReadRes.ok n :: rest) nr
      = afterRead conf (ngx_coalesce NGX_IOVS_PREALLOCATE limit chain).size
          nr rev n rest := by
    rw [gate_pass conf rev chain limit _ nr hkq hep,
        readLoop_ok _ _ _ _ _ _ _ hne hnn hsm hpos, if_neg hn]
  rw [hrw]
  exact afterRead_available _ _ _ _ _ _ hav

/-- Claim C4 counterexample: under the epoll mechanism a short read (2 bytes
of 3 requested) resets the available hint to 0 although the prior hint 5
satisfies h ≥ n; the claimed new hint h - n = 3 does not hold. -/
theorem available_exact_cex :
    (ngx_readv_chain ⟨false, true, true, true, false⟩
        ⟨true, false, false, 5, false, 0⟩ [⟨0, 3⟩] 0 [ReadRes.ok 2] none).2.1.available
      = 0 ∧ (0 : Int) ≠ 5 - 2 := by
  constructor
  · rfl
  · decide

/-- Claim C6 (amended): under the separate-query (FIONREAD) mechanism a
successful read of `n` bytes with a known hint h ≥ 0 subtracts `n`, clamping
the hint at zero, but clears `ready` by the hint logic only when the result
drops strictly below zero; when the hint lands exactly at zero (h = n)
`ready` is left unchanged by the hint logic and is cleared only when the
independent short-read rule (n < size and not greedy) applies. -/
theorem fionread_hint_update (conf : EventConf) (rev : NgxEvent)
    (chain : List NgxBuf) (limit : Int) (n : Nat) (rest : List ReadRes)
    (nr : Option Int)
    (hn : n ≠ 0) (hav : 0 ≤ rev.available)
    (hkq : conf.useKqueue = false) (hf : conf.haveFion = true)
    (hnep : ¬(conf.useEpoll = true ∧ conf.rdhup = true))
    (hep : conf.useEpoll = true → rev.available = 0 → rev.pending_eof = true)
    (hne : (ngx_coalesce NGX_IOVS_PREALLOCATE limit chain).iovs ≠ [])
    (hnn : ∀ v ∈ (ngx_coalesce NGX_IOVS_PREALLOCATE limit chain).iovs, 0 ≤ v.iov_len)
    (hsm : ivTotal (ngx_coalesce NGX_IOVS_PREALLOCATE limit chain).iovs ≤ SIZE_MAX)
    (hpos : ivTotal (ngx_coalesce NGX_IOVS_PREALLOCATE limit chain).iovs ≠ 0) :
    (ngx_readv_chain conf rev chain limit (ReadRes.ok n :: rest) nr).1
      = RvRet.bytes n ∧
    (ngx_readv_chain conf rev chain limit (ReadRes.ok n :: rest) nr).2.1.available
      = max (rev.available - n) 0 ∧
    (ngx_readv_chain conf rev chain limit (ReadRes.ok n :: rest) nr).2.1.ready
      = (if rev.available - n < 0
           ∨ ((n : Int) < (ngx_coalesce NGX_IOVS_PREALLOCATE limit chain).size
              ∧ conf.greedy = false)
         then false else rev.ready) := by
  have hrw : ngx_readv_chain conf rev chain limit (ReadRes.ok n :: rest) nr
      = afterRead conf (ngx_coalesce NGX_IOVS_PREALLOCATE limit chain).size
          nr rev n rest := by
    rw [gate_pass conf rev chain limit _ nr (fun h => absurd h (by simp [hkq])) hep,
        readLoop_ok _ _ _ _ _ _ _ hne hnn hsm hpos, if_neg hn]
  rw [hrw]
  exact afterRead_fion _ _ _ _ _ _ hav hkq hf hnep

/-- Claim C6 counterexample: h = n = 40 with a buffer of exactly 40 free
bytes (so n = size): afterwards the hint is 0 but `ready` is still set - the
code clears `ready` only when the hint would drop strictly below zero, not
"at zero or below" as claimed. -/
theorem fionread_ready_cex :
    (ngx_readv_chain ⟨false, false, true, false, false⟩
        ⟨true, false, false, 40, false, 0⟩ [⟨0, 40⟩] 0 [ReadRes.ok 40] none).2.1.available
      = 0 ∧
    (ngx_readv_chain ⟨false, false, true, false, false⟩
        ⟨true, false, false, 40, false, 0⟩ [⟨0, 40⟩] 0 [ReadRes.ok 40] none).2.1.ready
      = true := by
  constructor <;> rfl

theorem ivTotal_zero : ∀ (iovs : List Iovec), (∀ v ∈ iovs, v.iov_len = 0) →
    ivTotal iovs = 0
  | [], _ => rfl
  | v :: vs, h => by
    have h1 := h v (by simp)
    have h2 := ivTotal_zero vs (fun x hx => h x (by simp [hx]))
    simp [ivTotal, h1, h2]

/-- Claim C10: a nonempty chain whose every buffer is full (`last = end`)
still yields (zero-length) scatter entries; `kos_readv` then returns 0
without performing any read (its total length check fires), and
`ngx_readv_chain` reports EOF: `ready` cleared, `eof` set, return value 0,
with the read oracle untouched. -/
theorem full_chain_eof (conf : EventConf) (rev : NgxEvent) (chain : List NgxBuf)
    (limit : Int) (reads : List ReadRes) (nr : Option Int)
    (hkq : conf.useKqueue = false) (hep : conf.useEpoll = false)
    (hne : chain ≠ []) (hfull : ∀ b ∈ chain, b.last = b.end_) (hl : 0 ≤ limit) :
    (ngx_coalesce NGX_IOVS_PREALLOCATE limit chain).iovs ≠ [] ∧
    (∀ v ∈ (ngx_coalesce NGX_IOVS_PREALLOCATE limit chain).iovs, v.iov_len = 0) ∧
    ngx_readv_chain conf rev chain limit reads nr
      = (RvRet.bytes 0, { rev with ready := false, eof := true }, reads) := by
  cases chain with
  | nil => exact absurd rfl hne
  | cons b rest =>
    have hfree : bufFree b = 0 := by
      have := hfull b (by simp)
      simp [bufFree, this]
    have hn0 : coalesceLen limit 0 b = 0 := by
      simp only [coalesceLen, hfree]
      split_ifs with h
      · omega
      · rfl
    have hstep : ngx_coalesce NGX_IOVS_PREALLOCATE limit (b :: rest)
        = coalesceAux NGX_IOVS_PREALLOCATE limit rest (some b.end_) [⟨b.last, 0⟩] 0 := by
      unfold ngx_coalesce
      rw [coalesceAux, if_neg (by rintro ⟨h1, h2⟩; omega), if_neg (by simp),
          if_neg (by simp [NGX_IOVS_PREALLOCATE]), hn0]
      norm_num
    obtain ⟨hz, hsz⟩ := coalesceAux_zero NGX_IOVS_PREALLOCATE limit hl rest
      (some b.end_) [⟨b.last, 0⟩] (fun x hx => hfull x (by simp [hx])) (by simp)
    have hlen := coalesceAux_len NGX_IOVS_PREALLOCATE limit rest
      (some b.end_) [⟨b.last, 0⟩] 0
    have hvne : (ngx_coalesce NGX_IOVS_PREALLOCATE limit (b :: rest)).iovs ≠ [] := by
      rw [hstep]
      simp only [List.length_singleton] at hlen
      intro hcon
      rw [hcon] at hlen
      simp at hlen
    have hvz : ∀ v ∈ (ngx_coalesce NGX_IOVS_PREALLOCATE limit (b :: rest)).iovs,
        v.iov_len = 0 := by
      rw [hstep]
      exact hz
    have hiv0 : ivTotal (ngx_coalesce NGX_IOVS_PREALLOCATE limit (b :: rest)).iovs = 0 :=
      ivTotal_zero _ hvz
    refine ⟨hvne, hvz, ?_⟩
    rw [gate_pass conf rev (b :: rest) limit reads nr
        (fun h => absurd h (by simp [hkq])) (fun h => absurd h (by simp [hep]))]
    have hval := readValidCond (ngx_coalesce NGX_IOVS_PREALLOCATE limit (b :: rest)).iovs
      hvne (fun v hv => le_of_eq (hvz v hv).symm)
      (by rw [hiv0]; norm_num [SIZE_MAX])
    cases reads with
    | nil =>
      simp only [readLoop]
      rw [if_neg hval, if_pos hiv0]
      simp [eofRet, hkq]
    | cons r rs =>
      cases r with
      | ok n =>
        rw [readLoop, if_neg hval, if_pos hiv0]
        simp [eofRet, hkq]
      | err e =>
        cases e <;> (rw [readLoop, if_neg hval, if_pos hiv0]; simp [eofRet, hkq])

/-! ## Marker advancement (C8) and the kos_readv shim contents (C9) -/

theorem totalFree_nonneg : ∀ (bs : List NgxBuf),
    (∀ x ∈ bs, x.last ≤ x.end_) → 0 ≤ totalFree bs
  | [], _ => le_refl 0
  | b :: rest, wf => by
    have h1 : 0 ≤ bufFree b := by
      have := wf b (by simp)
      simp only [bufFree]
      omega
    have h2 := totalFree_nonneg rest (fun x hx => wf x (by simp [hx]))
    simp only [totalFree]
    omega

theorem fillBufs_zero : ∀ (bs : List NgxBuf), (∀ x ∈ bs, x.last ≤ x.end_) →
    fillBufs bs 0 = bs
  | [], _ => rfl
  | b :: rest, wf => by
    have hwb := wf b (by simp)
    have ih := fillBufs_zero rest (fun x hx => wf x (by simp [hx]))
    by_cases h : bufFree b ≤ 0
    · have hb : b.last = b.end_ := by
        simp only [bufFree] at h
        omega
      rw [fillBufs, if_pos h]
      have hfb : fullBuf b = b := by
        cases b with
        | mk l e =>
          simp only [fullBuf]
          simp at hb
          rw [hb]
      have hz : (0 : Int) - bufFree b = 0 := by
        simp only [bufFree]
        omega
      rw [hfb, hz, ih]
    · rw [fillBufs, if_neg h]
      simp only [Int.toNat_zero, Nat.add_zero, ih]

/-- Claim C8: when the read delivers `n` bytes with the partial position
falling inside buffer `b` (the buffers of `pre` are fully consumed and `n`
falls short of `pre`'s free space plus `b`'s), advancing the markers fills
every buffer of `pre` completely, advances `b.last` by exactly the remaining
bytes, and leaves every later buffer and the chain structure unchanged. -/
theorem marker_advance : ∀ (pre : List NgxBuf) (b : NgxBuf) (post : List NgxBuf) (n : Int),
    (∀ x ∈ pre, x.last ≤ x.end_) → (∀ x ∈ post, x.last ≤ x.end_) →
    totalFree pre ≤ n → n < totalFree pre + bufFree b →
    fillBufs (pre ++ b :: post) n
      = pre.map fullBuf ++ ({ b with last := b.last + (n - totalFree pre).toNat } :: post)
  | [], b, post, n, _, wfpost, h1, h2 => by
    simp only [totalFree] at h1 h2
    simp only [List.nil_append, List.map_nil]
    rw [fillBufs, if_neg (by omega), fillBufs_zero post wfpost]
    simp [totalFree]
  | p :: pre, b, post, n, wfpre, wfpost, h1, h2 => by
    have hwp := wfpre p (by simp)
    have hnn : 0 ≤ totalFree pre :=
      totalFree_nonneg pre (fun x hx => wfpre x (by simp [hx]))
    have hp : bufFree p ≤ n := by
      simp only [totalFree] at h1
      omega
    simp only [List.cons_append, List.map_cons]
    rw [fillBufs, if_pos hp,
        marker_advance pre b post (n - bufFree p)
          (fun x hx => wfpre x (by simp [hx])) wfpost
          (by simp only [totalFree] at h1; omega)
          (by simp only [totalFree] at h2; omega)]
    have harg : n - bufFree p - totalFree pre = n - totalFree (p :: pre) := by
      simp only [totalFree]
      ring
    rw [harg]

theorem scatterCopy_spec : ∀ (regs : List (List Nat)) (stage : List Nat),
    stage.length = regTotal regs →
    List.flatten (scatterCopy regs stage) = stage ∧
    (scatterCopy regs stage).map List.length = regs.map List.length
  | [], stage, h => by
    simp only [regTotal, List.map_nil, List.sum_nil] at h
    simp [scatterCopy, List.length_eq_zero.mp h]
  | r :: rs, stage, h => by
    have hlen : r.length ≤ stage.length := by
      simp only [regTotal, List.map_cons, List.sum_cons] at h
      omega
    have hdrop : (stage.drop r.length).length = regTotal rs := by
      simp only [List.length_drop, regTotal]
      simp only [regTotal, List.map_cons, List.sum_cons] at h
      omega
    obtain ⟨ih1, ih2⟩ := scatterCopy_spec rs (stage.drop r.length) hdrop
    constructor
    · simp only [scatterCopy, List.flatten_cons, ih1]
      exact List.take_append_drop r.length stage
    · simp only [scatterCopy, List.map_cons, ih2, List.length_take]
      congr 1
      omega

/-- Claim C9: on the successful path `kos_readv` copies the full `iov_len`
bytes into every supplied region from its zero-initialised staging buffer:
the concatenated region contents afterwards are exactly the read data padded
with zeros, each region keeping its length - so destination bytes beyond the
bytes actually read are overwritten with zeros, and the shim is not
equivalent to a vectored read that modifies only the first `readBytes` bytes
of the regions (concrete disagreement on region `[7,7,7]` with 1 byte read). -/
theorem kos_readv_zero_overwrite :
    (∀ (regs : List (List Nat)) (data : List Nat), data.length ≤ regTotal regs →
      List.flatten (kos_readv_fill regs data)
          = data ++ List.replicate (regTotal regs - data.length) 0 ∧
      (kos_readv_fill regs data).map List.length = regs.map List.length) ∧
    kos_readv_fill [[7, 7, 7]] [5] ≠ vectoredFill [[7, 7, 7]] [5] := by
  constructor
  · intro regs data h
    exact scatterCopy_spec regs _ (by simp; omega)
  · decide

/-! ## Concrete witnesses -/

/-- Witness for `kqueue_zero_gate`: Scenario B (hint 0, no pending EOF). -/
theorem kqueue_zero_gate_w :
    ngx_readv_chain ⟨true, false, false, false, false⟩
        ⟨true, false, false, 0, false, 0⟩ [⟨0, 10⟩] 0 [ReadRes.ok 3] none
      = (RvRet.again, ⟨true, false, false, 0, false, 0⟩, [ReadRes.ok 3]) :=
  (kqueue_zero_gate ⟨true, false, false, false, false⟩ ⟨true, false, false, 0, false, 0⟩
      [⟨0, 10⟩] 0 [ReadRes.ok 3] none rfl rfl).1 rfl

/-- Witness for `coalesce_limit`: one 10-byte-free buffer with limit 4. -/
theorem coalesce_limit_w :
    (ngx_coalesce NGX_IOVS_PREALLOCATE 4 [⟨0, 10⟩]).size = 4 :=
  (coalesce_limit [⟨0, 10⟩] 4 (by decide)).2.2 (by decide) (by decide)

/-- Witness for `coalesce_adjacency`: two contiguous buffers and a third
non-adjacent one give two entries covering 30 bytes. -/
theorem coalesce_adjacency_w :
    (ngx_coalesce NGX_IOVS_PREALLOCATE 0 [⟨0, 10⟩, ⟨10, 20⟩, ⟨50, 60⟩]).iovs.length
      = 1 + adjFails [⟨0, 10⟩, ⟨10, 20⟩, ⟨50, 60⟩] ∧
    ivTotal (ngx_coalesce NGX_IOVS_PREALLOCATE 0 [⟨0, 10⟩, ⟨10, 20⟩, ⟨50, 60⟩]).iovs
      = totalFree [⟨0, 10⟩, ⟨10, 20⟩, ⟨50, 60⟩] :=
  coalesce_adjacency [⟨0, 10⟩, ⟨10, 20⟩, ⟨50, 60⟩] (by decide) (by decide)

/-- Witness for `available_never_negative`: kqueue, hint 5, read of 2. -/
theorem available_never_negative_w :
    0 ≤ (ngx_readv_chain ⟨true, false, false, false, false⟩
        ⟨true, false, false, 5, false, 0⟩ [⟨0, 3⟩] 0 [ReadRes.ok 2] none).2.1.available :=
  (available_never_negative _ _ _ _ _ _ _ (by decide) (by decide) (by decide)
      (by decide) (by decide) (by decide) (by decide) (by decide)).1

/-- Witness for `read_error_dispatch`: Scenario D, EINTR then a 10-byte
success. -/
theorem read_error_dispatch_w :
    (ngx_readv_chain ⟨false, false, false, false, false⟩
        ⟨true, false, false, 0, false, 0⟩ [⟨0, 100⟩] 0
        [ReadRes.err Errno.eintr, ReadRes.ok 10] none).1 = RvRet.bytes 10 :=
  (read_error_dispatch _ _ _ _ _ (by decide) (by decide) (by decide) (by decide)
      (by decide) (by decide)).2.2.2 10 [] (by decide) (by decide)

/-- Witness for `fionread_hint_update`: Scenario A, hint 40, 100 bytes free,
read of 40. -/
theorem fionread_hint_update_w :
    (ngx_readv_chain ⟨false, false, true, false, false⟩
        ⟨true, false, false, 40, false, 0⟩ [⟨0, 100⟩] 0 [ReadRes.ok 40] none).1
      = RvRet.bytes 40 :=
  (fionread_hint_update _ _ _ _ _ _ _ (by decide) (by decide) (by decide) (by decide)
      (by decide) (by decide) (by decide) (by decide) (by decide) (by decide)).1

/-- Witness for `epoll_zero_gate`: hint 0, no pending EOF. -/
theorem epoll_zero_gate_w :
    ngx_readv_chain ⟨false, true, true, true, false⟩
        ⟨true, false, false, 0, false, 0⟩ [⟨0, 3⟩] 0 [ReadRes.ok 1] none
      = (RvRet.again, ⟨true, false, false, 0, false, 0⟩, [ReadRes.ok 1]) :=
  epoll_zero_gate _ _ _ _ _ _ rfl rfl rfl rfl

/-- Witness for `marker_advance`: 4 bytes into a chain of free sizes
2, 3 and 2: the first buffer fills, the second advances by 2, the third is
untouched. -/
theorem marker_advance_w :
    fillBufs ([⟨0, 2⟩] ++ (⟨2, 5⟩ : NgxBuf) :: [⟨10, 12⟩]) 4
      = [⟨0, 2⟩].map fullBuf
          ++ ({ (⟨2, 5⟩ : NgxBuf) with
                  last := (⟨2, 5⟩ : NgxBuf).last + ((4 : Int) - totalFree [⟨0, 2⟩]).toNat }
              :: [⟨10, 12⟩]) :=
  marker_advance [⟨0, 2⟩] ⟨2, 5⟩ [⟨10, 12⟩] 4 (by decide) (by decide)
    (by decide) (by decide)

/-- Witness for `kos_readv_zero_overwrite`: two regions of lengths 2 and 1,
one byte read. -/
theorem kos_readv_zero_overwrite_w :
    List.flatten (kos_readv_fill [[7, 7], [7]] [9])
        = [9] ++ List.replicate (regTotal [[7, 7], [7]] - ([9] : List Nat).length) 0 ∧
    (kos_readv_fill [[7, 7], [7]] [9]).map List.length
        = ([[7, 7], [7]] : List (List Nat)).map List.length :=
  kos_readv_zero_overwrite.1 [[7, 7], [7]] [9] (by decide)

/-- Witness for `full_chain_eof`: two full buffers, FIONREAD configuration,
untouched read oracle. -/
theorem full_chain_eof_w :
    ngx_readv_chain ⟨false, false, true, false, false⟩
        ⟨true, false, false, (-1), false, 0⟩ [⟨10, 10⟩, ⟨30, 30⟩] 0 [ReadRes.ok 5] none
      = (RvRet.bytes 0,
         { (⟨true, false, false, (-1), false, 0⟩ : NgxEvent) with
             ready := false, eof := true },
         [ReadRes.ok 5]) :=
  (full_chain_eof _ _ _ _ _ _ rfl rfl (by decide) (by decide) (by decide)).2.2
